import Mathlib

/-!
Verification of the Trade_Journal repository: a shallow embedding of the
text-block trade parser (`formatter.py`, function `parse_trade_file`) and of
the record store (`trading_journal.py`, functions `insert_trade` and
`fetch_all_trades`, plus the JSON upload path), together with theorems about
the claimed behaviour.

Documents are modelled as `List Char` (the full text of a file). Python
string operations used by the source are embedded explicitly:
`str.strip` (drops Python whitespace on both ends), `str.splitlines`
(splits at Python line boundaries), and `re.split` on the pattern of a
newline followed by whitespace and at least one further newline.
-/

namespace TradeJournal

/-- Python whitespace (the `Py_UNICODE_ISSPACE` set, used by `str.strip`,
truthiness of stripped lines, and the regex class of whitespace). -/
def isPySpace (c : Char) : Bool :=
  c.toNat = 0x9 || c.toNat = 0xA || c.toNat = 0xB || c.toNat = 0xC ||
  c.toNat = 0xD || c.toNat = 0x1C || c.toNat = 0x1D || c.toNat = 0x1E ||
  c.toNat = 0x1F || c.toNat = 0x20 || c.toNat = 0x85 || c.toNat = 0xA0 ||
  c.toNat = 0x1680 ||
  c.toNat = 0x2000 || c.toNat = 0x2001 || c.toNat = 0x2002 ||
  c.toNat = 0x2003 || c.toNat = 0x2004 || c.toNat = 0x2005 ||
  c.toNat = 0x2006 || c.toNat = 0x2007 || c.toNat = 0x2008 ||
  c.toNat = 0x2009 || c.toNat = 0x200A || c.toNat = 0x2028 ||
  c.toNat = 0x2029 || c.toNat = 0x202F || c.toNat = 0x205F ||
  c.toNat = 0x3000

/-- Python line boundaries recognised by `str.splitlines`. -/
def isLineBreak (c : Char) : Bool :=
  c.toNat = 0xA || c.toNat = 0xB || c.toNat = 0xC || c.toNat = 0xD ||
  c.toNat = 0x1C || c.toNat = 0x1D || c.toNat = 0x1E || c.toNat = 0x85 ||
  c.toNat = 0x2028 || c.toNat = 0x2029

/-- The bullet separator glyph `U+00B7`; lines containing it are dropped by
the parser (`"·" not in line` in `formatter.py`). -/
def middot : Char := Char.ofNat 0xB7

/-- Python `str.strip()`: drop whitespace from both ends. -/
def pyStrip (s : List Char) : List Char :=
  ((s.dropWhile isPySpace).reverse.dropWhile isPySpace).reverse

/-- True when the list starts with a line feed; used to pair CR LF. -/
def headLf : List Char → Bool
  | c :: _ => c = '\n'
  | [] => false

/-- Recursion core of `str.splitlines`, driven by a fuel bound on the text
length so that the definition is structural and computes by reduction. -/
def splitLinesAux : Nat → List Char → List (List Char)
  | 0, _ => []
  | _ + 1, [] => []
  | fuel + 1, c :: t =>
    if isLineBreak c then
      [] :: splitLinesAux fuel (if c = '\r' ∧ headLf t = true then t.tail else t)
    else
      match splitLinesAux fuel t with
      | [] => [[c]]
      | p :: ps => (c :: p) :: ps

/-- Python `str.splitlines()`: split at line boundaries, treating CR LF as a
single boundary, with no empty final line for a trailing boundary. -/
def splitLines (s : List Char) : List (List Char) :=
  splitLinesAux (s.length + 1) s

theorem splitLinesAux_fuel :
    ∀ (f1 f2 : Nat) {s : List Char}, s.length < f1 → s.length < f2 →
      splitLinesAux f1 s = splitLinesAux f2 s := by
  intro f1
  induction f1 with
  | zero => intro f2 s h1 h2; omega
  | succ f1 ih =>
    intro f2 s h1 h2
    cases f2 with
    | zero => omega
    | succ f2 =>
      cases s with
      | nil => rfl
      | cons c t =>
        simp only [List.length_cons] at h1 h2
        rw [splitLinesAux, splitLinesAux]
        by_cases hb : isLineBreak c
        · rw [if_pos hb, if_pos hb]
          by_cases hp : c = '\r' ∧ headLf t = true
          · rw [if_pos hp]
            cases t with
            | nil => exact absurd hp.2 (by simp [headLf])
            | cons d u =>
              simp only [List.tail_cons, List.length_cons] at h1 h2 ⊢
              rw [ih f2 (by omega) (by omega)]
          · rw [if_neg hp, ih f2 (by omega) (by omega)]
        · rw [if_neg hb, if_neg hb, ih f2 (by omega) (by omega)]

/-- Helper for the block separator of `re.split` on a newline, whitespace,
then at least one further newline: given the text after an initial newline,
if its leading whitespace run contains another newline, return the text
after the last newline of that run (the end of the greedy regex match). -/
def sepTail : List Char → Option (List Char)
  | [] => none
  | c :: t =>
    if c = '\n' then some ((sepTail t).getD t)
    else if isPySpace c then sepTail t
    else none

theorem sepTail_length : ∀ {t r : List Char}, sepTail t = some r → r.length ≤ t.length := by
  intro t
  induction t with
  | nil => intro r h; simp [sepTail] at h
  | cons c t ih =>
    intro r h
    simp only [sepTail] at h
    by_cases hc : c = '\n'
    · simp only [hc, if_pos rfl, Option.some.injEq] at h
      cases hs : sepTail t with
      | none => rw [hs] at h; simp at h; subst h; simp
      | some r' =>
        rw [hs] at h; simp at h; subst h
        have := ih hs
        simp; omega
    · rw [if_neg hc] at h
      by_cases hp : isPySpace c
      · rw [if_pos hp] at h
        have := ih h
        simp; omega
      · rw [if_neg hp] at h; simp at h

/-- Recursion core of the block split, driven by a fuel bound on the text
length so that the definition is structural and computes by reduction. -/
def reSplitAux : Nat → List Char → List (List Char)
  | 0, _ => [[]]
  | _ + 1, [] => [[]]
  | fuel + 1, c :: t =>
    if h : c = '\n' ∧ (sepTail t).isSome then
      [] :: reSplitAux fuel ((sepTail t).get h.2)
    else
      match reSplitAux fuel t with
      | [] => [[c]]
      | p :: ps => (c :: p) :: ps

/-- Embedding of `re.split(r'\n\s*\n+', text)`: cut the text at every
(leftmost, greedy) match of a newline followed by whitespace and at least
one further newline. -/
def reSplit (s : List Char) : List (List Char) :=
  reSplitAux (s.length + 1) s

theorem reSplitAux_fuel :
    ∀ (f1 f2 : Nat) {s : List Char}, s.length < f1 → s.length < f2 →
      reSplitAux f1 s = reSplitAux f2 s := by
  intro f1
  induction f1 with
  | zero => intro f2 s h1 h2; omega
  | succ f1 ih =>
    intro f2 s h1 h2
    cases f2 with
    | zero => omega
    | succ f2 =>
      cases s with
      | nil => rfl
      | cons c t =>
        simp only [List.length_cons] at h1 h2
        rw [reSplitAux, reSplitAux]
        by_cases h : c = '\n' ∧ (sepTail t).isSome
        · rw [dif_pos h, dif_pos h]
          have hr := sepTail_length (Option.eq_some_of_isSome h.2)
          rw [ih f2 (by omega) (by omega)]
        · rw [dif_neg h, dif_neg h, ih f2 (by omega) (by omega)]

/-- The fixed label vocabulary of `parse_trade_file`, in declared order. -/
def labels : List String :=
  ["Type", "Position effect", "Time in force", "Submitted", "Quantity",
   "Account", "Status", "Filled quantity", "Filled", "Limit price",
   "Est cost", "Est regulatory fees"]

/-- The labels as character lists, in declared order. -/
def labelsL : List (List Char) := labels.map String.toList

/-- Per-block line filtering of `parse_trade_file`: strip every line, drop
empty lines, then drop lines containing the bullet glyph. -/
def filterRaw (raws : List (List Char)) : List (List Char) :=
  (((raws.map pyStrip).filter (fun l => !l.isEmpty)).filter
    (fun l => !l.contains middot))

/-- The post-filter lines of one raw block. -/
def filterLines (block : List Char) : List (List Char) :=
  filterRaw (splitLines block)

/-- Body of the `while idx < len(lines) and lines[idx] != label: idx += 1`
loop of `parse_trade_file`, driven by a fuel bound on the remaining
distance so that it is structural and computes by reduction. -/
def advanceIdxAux (lines : List (List Char)) (label : List Char) : Nat → Nat → Nat
  | 0, idx => idx
  | fuel + 1, idx =>
    if h : idx < lines.length then
      if lines.get ⟨idx, h⟩ = label then idx
      else advanceIdxAux lines label fuel (idx + 1)
    else idx

/-- The `while idx < len(lines) and lines[idx] != label: idx += 1` loop of
`parse_trade_file`. -/
def advanceIdx (lines : List (List Char)) (label : List Char) (idx : Nat) : Nat :=
  advanceIdxAux lines label (lines.length - idx) idx

/-- One iteration of the label loop of `parse_trade_file`: advance the
cursor to the label, then capture the following line when there is one. -/
def scanStep (lines : List (List Char)) (st : Nat × List (String × String))
    (label : List Char) : Nat × List (String × String) :=
  let idx := advanceIdx lines label st.1
  if idx < lines.length ∧ lines.getD idx [] = label ∧ idx + 1 < lines.length then
    (idx + 2, st.2 ++ [(String.mk label, String.mk (lines.getD (idx + 1) []))])
  else
    (idx + 1, st.2)

/-- The whole label loop of `parse_trade_file`, started at index 3, returning
the captured labelled fields in capture order. -/
def scanLabels (lines : List (List Char)) : List (String × String) :=
  (labelsL.foldl (scanStep lines) (3, [])).2

/-- Parse the (already split) lines of one block: filter them, require at
least three lines, assign the three positional fields, then run the label
loop. Returns `none` for a block that is skipped. -/
def parseRawLines (raws : List (List Char)) : Option (List (String × String)) :=
  let lines := filterRaw raws
  if lines.length < 3 then none
  else some
    ([("header", String.mk (lines.getD 0 [])),
      ("Total Cost", String.mk (lines.getD 1 [])),
      ("Quantity + Price", String.mk (lines.getD 2 []))] ++ scanLabels lines)

/-- Parse one raw block of text. -/
def parseBlock (block : List Char) : Option (List (String × String)) :=
  parseRawLines (splitLines block)

/-- Parse a list of blocks, keeping the records of the valid ones in order. -/
def parseBlocks (bs : List (List Char)) : List (List (String × String)) :=
  bs.filterMap parseBlock

/-- Embedding of `parse_trade_file` on the text of the file: strip the
document, split it into blank-line separated blocks, and parse each block. -/
def parse_trade_file (doc : List Char) : List (List (String × String)) :=
  parseBlocks (reSplit (pyStrip doc))

/-- A text is separator free when no position in it starts a block
separator match. -/
def sepFree : List Char → Bool
  | [] => true
  | c :: t => (!(decide (c = '\n') && (sepTail t).isSome)) && sepFree t

/-- Stated from the specification of the label loop: the cursor advances
past the lines that are not exactly equal to the label; if it then lands on
a line equal to the label with at least one line after it, the following
line becomes the label's value and the cursor advances by two, otherwise
the cursor advances by one and the label is absent. -/
def specStep (lines : List (List Char)) (st : Nat × List (String × String))
    (label : List Char) : Nat × List (String × String) :=
  let c := st.1 + ((lines.drop st.1).takeWhile (fun l => !(l == label))).length
  if c < lines.length ∧ lines.getD c [] = label ∧ c + 1 < lines.length then
    (c + 2, st.2 ++ [(String.mk label, String.mk (lines.getD (c + 1) []))])
  else
    (c + 1, st.2)

/-- The label extraction described by the specification, one pass over the
declared labels with a single forward cursor starting at index 3. -/
def specScanLabels (lines : List (List Char)) : List (String × String) :=
  (labelsL.foldl (specStep lines) (3, [])).2

/-- One row of the `trades` table of `trading_journal.py`: the record
passed to `insert_trade`, keyed by its column names. -/
structure SaveRecord where
  header : String
  total_cost : String
  quantity_price : String
  type : String
  position_effect : String
  time_in_force : String
  submitted : String
  quantity : String
  account : String
  status : String
  filled_quantity : String
  filled : String
  limit_price : String
  est_cost : String
  est_reg_fees : String
  suggestion : String
  comment : String
  saved_at : String
deriving DecidableEq, Repr

/-- A persisted row: the stored record plus the surrogate id the store
assigns on insert. -/
structure TradeRow where
  id : Nat
  data : SaveRecord
deriving DecidableEq, Repr

/-- Embedding of `insert_trade`: append one row, with the autoincrement id.
The database state is the list of rows in insertion order. -/
def insert_trade (db : List TradeRow) (r : SaveRecord) : List TradeRow :=
  db ++ [⟨db.length + 1, r⟩]

/-- The ordering used by `fetch_all_trades` (`ORDER BY saved_at DESC`). -/
def savedAtDesc (a b : TradeRow) : Prop :=
  b.data.saved_at ≤ a.data.saved_at

instance : DecidableRel savedAtDesc :=
  fun _ _ => inferInstanceAs (Decidable (_ ≤ _))

instance : IsTotal TradeRow savedAtDesc :=
  ⟨fun a b => le_total b.data.saved_at a.data.saved_at⟩

instance : IsTrans TradeRow savedAtDesc :=
  ⟨fun _ _ _ h1 h2 => le_trans h2 h1⟩

/-- Embedding of `fetch_all_trades`: all rows, sorted by `saved_at`
descending. -/
def fetch_all_trades (db : List TradeRow) : List TradeRow :=
  db.insertionSort savedAtDesc

/-- The expected key set of one structured (JSON) trade object in
`trading_journal.py`. -/
def expected_keys : List String :=
  ["header", "Total Cost", "Quantity + Price", "Type", "Position effect",
   "Time in force", "Submitted", "Quantity", "Account", "Status",
   "Filled quantity", "Filled", "Limit price", "Est cost", "Est regulatory fees"]

/-- The missing-field set `expected_keys - set(trade_data.keys())` reported
by the upload warning, as the list of expected keys absent from the
object. -/
def missingFields (td : List (String × String)) : List String :=
  expected_keys.filter (fun k => !(td.map Prod.fst).contains k)

/-- Python `trade_data.get(key, "")` on a JSON object modelled as an
association list. -/
def tdGet (td : List (String × String)) (k : String) : String :=
  (td.lookup k).getD ""

/-- The record built for saving from one structured trade object (the
fallback path with no edited widget state): every field is fetched with
`get(key, "")`. -/
def buildRecord (td : List (String × String))
    (suggestion comment saved_at : String) : SaveRecord where
  header := tdGet td "header"
  total_cost := tdGet td "Total Cost"
  quantity_price := tdGet td "Quantity + Price"
  type := tdGet td "Type"
  position_effect := tdGet td "Position effect"
  time_in_force := tdGet td "Time in force"
  submitted := tdGet td "Submitted"
  quantity := tdGet td "Quantity"
  account := tdGet td "Account"
  status := tdGet td "Status"
  filled_quantity := tdGet td "Filled quantity"
  filled := tdGet td "Filled"
  limit_price := tdGet td "Limit price"
  est_cost := tdGet td "Est cost"
  est_reg_fees := tdGet td "Est regulatory fees"
  suggestion := suggestion
  comment := comment
  saved_at := saved_at

/-- The stored column that each expected JSON key feeds, read off the
record construction in `trading_journal.py`. -/
def fieldOf (r : SaveRecord) (k : String) : String :=
  if k = "header" then r.header
  else if k = "Total Cost" then r.total_cost
  else if k = "Quantity + Price" then r.quantity_price
  else if k = "Type" then r.type
  else if k = "Position effect" then r.position_effect
  else if k = "Time in force" then r.time_in_force
  else if k = "Submitted" then r.submitted
  else if k = "Quantity" then r.quantity
  else if k = "Account" then r.account
  else if k = "Status" then r.status
  else if k = "Filled quantity" then r.filled_quantity
  else if k = "Filled" then r.filled
  else if k = "Limit price" then r.limit_price
  else if k = "Est cost" then r.est_cost
  else if k = "Est regulatory fees" then r.est_reg_fees
  else ""

/-! ### Basic lemmas about the embedded string operations -/

theorem lineBreak_isPySpace {c : Char} (h : isLineBreak c = true) : isPySpace c = true := by
  simp only [isLineBreak, Bool.or_eq_true, decide_eq_true_eq] at h
  simp only [isPySpace, Bool.or_eq_true, decide_eq_true_eq]
  omega

theorem middot_not_space : isPySpace middot = false := by decide

theorem splitLines_nil : splitLines [] = [] := rfl

theorem splitLines_cons (c : Char) (t : List Char) :
    splitLines (c :: t) =
      if isLineBreak c then
        [] :: splitLines (if c = '\r' ∧ headLf t = true then t.tail else t)
      else
        match splitLines t with
        | [] => [[c]]
        | p :: ps => (c :: p) :: ps := by
  show splitLinesAux ((c :: t).length + 1) (c :: t) = _
  simp only [List.length_cons]
  rw [splitLinesAux]
  by_cases hb : isLineBreak c
  · rw [if_pos hb, if_pos hb]
    by_cases hp : c = '\r' ∧ headLf t = true
    · rw [if_pos hp]
      have hlen : t.tail.length < t.length + 1 := by
        have := List.length_tail t
        omega
      exact congrArg (fun x => [] :: x)
        (splitLinesAux_fuel (t.length + 1) (t.tail.length + 1) hlen (by omega))
    · rw [if_neg hp]
      rfl
  · rw [if_neg hb, if_neg hb]
    rfl

theorem splitLines_eq_nil_iff {t : List Char} : splitLines t = [] ↔ t = [] := by
  constructor
  · intro h
    cases t with
    | nil => rfl
    | cons c u =>
      rw [splitLines_cons] at h
      by_cases hb : isLineBreak c
      · rw [if_pos hb] at h; simp at h
      · rw [if_neg hb] at h
        cases hs : splitLines u <;> rw [hs] at h <;> simp at h
  · intro h; subst h; rfl

theorem pyStrip_nil : pyStrip [] = [] := rfl

theorem pyStrip_cons_of_space {c : Char} (h : isPySpace c = true) (s : List Char) :
    pyStrip (c :: s) = pyStrip s := by
  simp [pyStrip, List.dropWhile_cons_of_pos h]

theorem pyStrip_eq_nil_of_all {L : List Char} (h : ∀ d ∈ L, isPySpace d = true) :
    pyStrip L = [] := by
  simp [pyStrip, List.dropWhile_eq_nil_iff.2 h]

theorem pyStrip_append_space {c : Char} (h : isPySpace c = true) (s : List Char) :
    pyStrip (s ++ [c]) = pyStrip s := by
  unfold pyStrip
  rw [List.dropWhile_append]
  by_cases he : (s.dropWhile isPySpace).isEmpty
  · rw [if_pos he]
    have hnil : s.dropWhile isPySpace = [] := by
      cases hs : s.dropWhile isPySpace <;> simp [hs] at he ⊢
    rw [hnil]
    simp [List.dropWhile_cons_of_pos h]
  · rw [if_neg he]
    rw [List.reverse_append]
    simp [List.dropWhile_cons_of_pos h]

theorem mem_pyStrip_of_not_space {a : Char} {s : List Char}
    (ha : a ∈ s) (hn : isPySpace a = false) : a ∈ pyStrip s := by
  have h1 : a ∈ s.dropWhile isPySpace := by
    induction s with
    | nil => simp at ha
    | cons c t ih =>
      by_cases hc : isPySpace c
      · rw [List.dropWhile_cons_of_pos hc]
        rcases List.mem_cons.1 ha with h | h
        · subst h; rw [hc] at hn; simp at hn
        · exact ih h
      · rw [List.dropWhile_cons_of_neg hc]; exact ha
  have h2 : a ∈ (s.dropWhile isPySpace).reverse.dropWhile isPySpace := by
    generalize hw : (s.dropWhile isPySpace).reverse = w
    have haw : a ∈ w := by rw [← hw]; simpa using h1
    clear hw h1
    induction w with
    | nil => simp at haw
    | cons c t ih =>
      by_cases hc : isPySpace c
      · rw [List.dropWhile_cons_of_pos hc]
        rcases List.mem_cons.1 haw with h | h
        · subst h; rw [hc] at hn; simp at hn
        · exact ih h
      · rw [List.dropWhile_cons_of_neg hc]; exact haw
  simpa [pyStrip] using h2

theorem pyStrip_subset {s : List Char} : pyStrip s ⊆ s := by
  intro a ha
  simp only [pyStrip, List.mem_reverse] at ha
  have h1 := (List.dropWhile_sublist isPySpace :
    List.Sublist ((s.dropWhile isPySpace).reverse.dropWhile isPySpace)
      ((s.dropWhile isPySpace).reverse)).subset ha
  simp only [List.mem_reverse] at h1
  exact (List.dropWhile_sublist isPySpace :
    List.Sublist (s.dropWhile isPySpace) s).subset h1

theorem filterRaw_append (a b : List (List Char)) :
    filterRaw (a ++ b) = filterRaw a ++ filterRaw b := by
  simp [filterRaw, List.filter_append]

theorem filterRaw_cons_empty {x : List Char} (h : pyStrip x = []) (xs : List (List Char)) :
    filterRaw (x :: xs) = filterRaw xs := by
  simp [filterRaw, h]

theorem filterRaw_cons_strip {x y : List Char} (h : pyStrip x = pyStrip y)
    (xs : List (List Char)) : filterRaw (x :: xs) = filterRaw (y :: xs) := by
  simp [filterRaw, h]

theorem headLf_iff {t : List Char} : headLf t = true ↔ ∃ u, t = '\n' :: u := by
  cases t with
  | nil => simp [headLf]
  | cons c u =>
    simp only [headLf, decide_eq_true_eq, List.cons.injEq]
    constructor
    · intro h; exact ⟨u, h, rfl⟩
    · rintro ⟨u', h, _⟩; exact h

theorem splitLines_singleton (c : Char) :
    splitLines [c] = if isLineBreak c then [[]] else [[c]] := by
  rw [splitLines_cons]
  have hno : ¬(c = '\r' ∧ headLf ([] : List Char) = true) := by
    intro h; simp [headLf] at h
  by_cases hb : isLineBreak c
  · rw [if_pos hb, if_neg hno, splitLines_nil, if_pos hb]
  · rw [if_neg hb, splitLines_nil, if_neg hb]

theorem filterLines_cons_space {c : Char} (hc : isPySpace c = true) (t : List Char) :
    filterLines (c :: t) = filterLines t := by
  unfold filterLines
  by_cases hb : isLineBreak c
  · rw [splitLines_cons, if_pos hb]
    by_cases hp : c = '\r' ∧ headLf t = true
    · obtain ⟨u, hu⟩ := headLf_iff.1 hp.2
      subst hu
      rw [if_pos hp, List.tail_cons]
      rw [filterRaw_cons_empty pyStrip_nil]
      rw [splitLines_cons, if_pos (show isLineBreak '\n' = true by decide)]
      rw [if_neg (show ¬('\n' = '\r' ∧ headLf u = true) from fun h => absurd h.1 (by decide))]
      rw [filterRaw_cons_empty pyStrip_nil]
    · rw [if_neg hp]
      exact filterRaw_cons_empty pyStrip_nil _
  · rw [splitLines_cons, if_neg hb]
    cases hs : splitLines t with
    | nil =>
      exact filterRaw_cons_empty (pyStrip_eq_nil_of_all (by simp [hc])) []
    | cons p ps =>
      exact filterRaw_cons_strip (pyStrip_cons_of_space hc p) ps

theorem filterLines_dropWhile (t : List Char) :
    filterLines (t.dropWhile isPySpace) = filterLines t := by
  induction t with
  | nil => simp
  | cons c u ih =>
    by_cases hc : isPySpace c
    · rw [List.dropWhile_cons_of_pos hc, ih, filterLines_cons_space hc]
    · rw [List.dropWhile_cons_of_neg hc]

theorem splitLines_append_space {c : Char} (hc : isPySpace c = true) :
    ∀ (n : Nat) (t : List Char), t.length ≤ n →
      splitLines (t ++ [c]) = splitLines t ∨
      (∃ L, (∀ d ∈ L, isPySpace d = true) ∧ splitLines (t ++ [c]) = splitLines t ++ [L]) ∨
      (∃ init p, splitLines t = init ++ [p] ∧ splitLines (t ++ [c]) = init ++ [p ++ [c]]) := by
  intro n
  induction n with
  | zero =>
    intro t ht
    have ht0 : t = [] := by cases t <;> simp_all
    subst ht0
    right; left
    rw [splitLines_nil, List.nil_append, splitLines_singleton]
    by_cases hcb : isLineBreak c
    · exact ⟨[], by simp, by simp [hcb]⟩
    · exact ⟨[c], by simp [hc], by simp [hcb]⟩
  | succ n ih =>
    intro t ht
    cases t with
    | nil =>
      right; left
      rw [splitLines_nil, List.nil_append, splitLines_singleton]
      by_cases hcb : isLineBreak c
      · exact ⟨[], by simp, by simp [hcb]⟩
      · exact ⟨[c], by simp [hc], by simp [hcb]⟩
    | cons c' t' =>
      simp only [List.length_cons] at ht
      have ht' : t'.length ≤ n := by omega
      by_cases hb : isLineBreak c'
      · by_cases hp : c' = '\r' ∧ headLf t' = true
        · obtain ⟨u, hu⟩ := headLf_iff.1 hp.2
          subst hu
          have hu' : u.length ≤ n := by simp only [List.length_cons] at ht'; omega
          have hL : splitLines ((c' :: '\n' :: u) ++ [c]) = [] :: splitLines (u ++ [c]) := by
            rw [List.cons_append, splitLines_cons, if_pos hb,
              if_pos (show c' = '\r' ∧ headLf (('\n' :: u) ++ [c]) = true from
                ⟨hp.1, by simp [headLf]⟩)]
            simp
          have hR : splitLines (c' :: '\n' :: u) = [] :: splitLines u := by
            rw [splitLines_cons, if_pos hb, if_pos hp, List.tail_cons]
          rcases ih u hu' with h | ⟨L, hLsp, h⟩ | ⟨init, p, h1, h2⟩
          · left; rw [hL, hR, h]
          · right; left
            exact ⟨L, hLsp, by rw [hL, hR, h]; simp⟩
          · right; right
            exact ⟨[] :: init, p, by rw [hR, h1]; simp, by rw [hL, h2]; simp⟩
        · cases t' with
          | nil =>
            have hR : splitLines [c'] = [[]] := by
              rw [splitLines_cons, if_pos hb, if_neg hp, splitLines_nil]
            by_cases hpair : c' = '\r' ∧ headLf [c] = true
            · left
              have hL : splitLines ([c'] ++ [c]) = [[]] := by
                rw [List.singleton_append, splitLines_cons, if_pos hb, if_pos hpair,
                  List.tail_cons, splitLines_nil]
              rw [hL, hR]
            · right; left
              have hL : splitLines ([c'] ++ [c]) = [] :: splitLines [c] := by
                rw [List.singleton_append, splitLines_cons, if_pos hb, if_neg hpair]
              rw [hL, hR, splitLines_singleton]
              by_cases hcb : isLineBreak c
              · exact ⟨[], by simp, by simp [hcb]⟩
              · exact ⟨[c], by simp [hc], by simp [hcb]⟩
          | cons d u =>
            have hL : splitLines ((c' :: d :: u) ++ [c]) =
                [] :: splitLines ((d :: u) ++ [c]) := by
              rw [List.cons_append, splitLines_cons, if_pos hb,
                if_neg (show ¬(c' = '\r' ∧ headLf ((d :: u) ++ [c]) = true) from
                  fun h => hp ⟨h.1, by simpa [headLf] using h.2⟩)]
            have hR : splitLines (c' :: d :: u) = [] :: splitLines (d :: u) := by
              rw [splitLines_cons, if_pos hb, if_neg hp]
            rcases ih (d :: u) ht' with h | ⟨L, hLsp, h⟩ | ⟨init, p, h1, h2⟩
            · left; rw [hL, hR, h]
            · right; left
              exact ⟨L, hLsp, by rw [hL, hR, h]; simp⟩
            · right; right
              exact ⟨[] :: init, p, by rw [hR, h1]; simp, by rw [hL, h2]; simp⟩
      · have hmatch : ∀ (X : List Char), splitLines (c' :: X) =
            (match splitLines X with
              | [] => [[c']]
              | p :: ps => (c' :: p) :: ps) := by
          intro X; rw [splitLines_cons, if_neg hb]
        cases hs : splitLines t' with
        | nil =>
          have ht0 : t' = [] := splitLines_eq_nil_iff.1 hs
          subst ht0
          by_cases hcb : isLineBreak c
          · left
            rw [show (c' :: ([] : List Char)) ++ [c] = c' :: [c] by simp,
              hmatch [c], hmatch [], splitLines_nil, splitLines_singleton, if_pos hcb]
          · right; right
            refine ⟨[], [c'], ?_, ?_⟩
            · rw [hmatch [], splitLines_nil]; simp
            · rw [show (c' :: ([] : List Char)) ++ [c] = c' :: [c] by simp,
                hmatch [c], splitLines_singleton, if_neg hcb]
              simp
        | cons p ps =>
          rcases ih t' ht' with h | ⟨L, hLsp, h⟩ | ⟨init, q, h1, h2⟩
          · left
            rw [List.cons_append, hmatch (t' ++ [c]), hmatch t', h]
          · right; left
            refine ⟨L, hLsp, ?_⟩
            rw [List.cons_append, hmatch (t' ++ [c]), hmatch t', h, hs]
            simp
          · right; right
            cases init with
            | nil =>
              simp only [List.nil_append] at h1 h2
              rw [hs] at h1
              obtain ⟨hq, hps⟩ : p = q ∧ ps = [] := by simpa using h1
              refine ⟨[], c' :: q, ?_, ?_⟩
              · rw [hmatch t', hs, hq, hps]; simp
              · rw [List.cons_append, hmatch (t' ++ [c]), h2]; simp
            | cons i is =>
              rw [hs] at h1
              simp only [List.cons_append, List.cons.injEq] at h1
              refine ⟨(c' :: i) :: is, q, ?_, ?_⟩
              · rw [hmatch t', hs, h1.1, h1.2]; simp
              · rw [List.cons_append, hmatch (t' ++ [c]), h2]; simp

theorem filterLines_append_space {c : Char} (hc : isPySpace c = true) (t : List Char) :
    filterLines (t ++ [c]) = filterLines t := by
  rcases splitLines_append_space hc t.length t le_rfl with h | ⟨L, hLsp, h⟩ | ⟨init, p, h1, h2⟩
  · unfold filterLines; rw [h]
  · unfold filterLines
    rw [h, filterRaw_append, filterRaw_cons_empty (pyStrip_eq_nil_of_all hLsp)]
    simp [filterRaw]
  · unfold filterLines
    rw [h1, h2, filterRaw_append, filterRaw_append]
    congr 1
    exact filterRaw_cons_strip (pyStrip_append_space hc p) []

theorem filterLines_append_all_space {v : List Char}
    (hv : ∀ d ∈ v, isPySpace d = true) (u : List Char) :
    filterLines (u ++ v) = filterLines u := by
  induction v using List.reverseRecOn with
  | nil => simp
  | append_singleton v' c ih =>
    have hc : isPySpace c = true := hv c (by simp)
    have hv' : ∀ d ∈ v', isPySpace d = true := fun d hd => hv d (by simp [hd])
    rw [← List.append_assoc, filterLines_append_space hc, ih hv']

theorem filterLines_pyStrip (b : List Char) : filterLines (pyStrip b) = filterLines b := by
  have hgen : ∀ (w : List Char),
      w.reverse = (w.dropWhile isPySpace).reverse ++ (w.takeWhile isPySpace).reverse := by
    intro w
    rw [← List.reverse_append, List.takeWhile_append_dropWhile]
  have hsplit : b.dropWhile isPySpace = pyStrip b ++
      ((b.dropWhile isPySpace).reverse.takeWhile isPySpace).reverse := by
    have h := hgen ((b.dropWhile isPySpace).reverse)
    rw [List.reverse_reverse] at h
    unfold pyStrip
    exact h
  have hsp : ∀ d ∈ ((b.dropWhile isPySpace).reverse.takeWhile isPySpace).reverse,
      isPySpace d = true := by
    intro d hd
    rw [List.mem_reverse] at hd
    exact List.mem_takeWhile_imp hd
  calc filterLines (pyStrip b)
      = filterLines (pyStrip b ++
          ((b.dropWhile isPySpace).reverse.takeWhile isPySpace).reverse) :=
        (filterLines_append_all_space hsp _).symm
    _ = filterLines (b.dropWhile isPySpace) := by rw [← hsplit]
    _ = filterLines b := filterLines_dropWhile b

/-! ### Pieces of the block split contain no further separator -/

theorem reSplit_nil : reSplit [] = [[]] := rfl

theorem reSplit_cons (c : Char) (t : List Char) :
    reSplit (c :: t) =
      if h : c = '\n' ∧ (sepTail t).isSome then
        [] :: reSplit ((sepTail t).get h.2)
      else
        match reSplit t with
        | [] => [[c]]
        | p :: ps => (c :: p) :: ps := by
  show reSplitAux ((c :: t).length + 1) (c :: t) = _
  simp only [List.length_cons]
  rw [reSplitAux]
  by_cases h : c = '\n' ∧ (sepTail t).isSome
  · rw [dif_pos h, dif_pos h]
    have hr := sepTail_length (Option.eq_some_of_isSome h.2)
    rw [reSplitAux_fuel (t.length + 1) (((sepTail t).get h.2).length + 1) (by omega) (by omega)]
    rfl
  · rw [dif_neg h, dif_neg h]
    rfl

theorem reSplit_ne_nil (s : List Char) : reSplit s ≠ [] := by
  cases s with
  | nil => rw [reSplit_nil]; simp
  | cons c t =>
    rw [reSplit_cons]
    by_cases h : c = '\n' ∧ (sepTail t).isSome
    · rw [dif_pos h]; simp
    · rw [dif_neg h]
      cases reSplit t <;> simp

theorem sepTail_none_head :
    ∀ (n : Nat) (t : List Char), t.length ≤ n → sepTail t = none →
      ∀ p ps, reSplit t = p :: ps → sepTail p = none := by
  intro n
  induction n with
  | zero =>
    intro t ht _ p ps hr
    have ht0 : t = [] := by cases t <;> simp_all
    subst ht0
    rw [reSplit_nil] at hr
    simp at hr
    rw [hr.1]
    rfl
  | succ n ih =>
    intro t ht hnone p ps hr
    cases t with
    | nil =>
      rw [reSplit_nil] at hr
      simp at hr
      rw [hr.1]
      rfl
    | cons c' t' =>
      have hc' : ¬ c' = '\n' := by
        intro h
        rw [sepTail, if_pos h] at hnone
        simp at hnone
      have hcond : ¬(c' = '\n' ∧ (sepTail t').isSome) := fun h => hc' h.1
      rw [reSplit_cons, dif_neg hcond] at hr
      cases hq : reSplit t' with
      | nil => exact absurd hq (reSplit_ne_nil t')
      | cons p' ps' =>
        rw [hq] at hr
        simp at hr
        rw [← hr.1]
        rw [sepTail, if_neg hc'] at hnone ⊢
        by_cases hsp : isPySpace c'
        · rw [if_pos hsp] at hnone ⊢
          simp only [List.length_cons] at ht
          exact ih t' (by omega) hnone p' ps' hq
        · rw [if_neg hsp]

theorem mem_reSplit_sepFree :
    ∀ (n : Nat) (s : List Char), s.length ≤ n → ∀ b ∈ reSplit s, sepFree b = true := by
  intro n
  induction n with
  | zero =>
    intro s hs b hb
    have hs0 : s = [] := by cases s <;> simp_all
    subst hs0
    rw [reSplit_nil] at hb
    simp at hb
    subst hb
    rfl
  | succ n ih =>
    intro s hs b hb
    cases s with
    | nil =>
      rw [reSplit_nil] at hb
      simp at hb
      subst hb
      rfl
    | cons c t =>
      simp only [List.length_cons] at hs
      rw [reSplit_cons] at hb
      by_cases h : c = '\n' ∧ (sepTail t).isSome
      · rw [dif_pos h] at hb
        rcases List.mem_cons.1 hb with hb | hb
        · subst hb; rfl
        · have hr := sepTail_length (Option.eq_some_of_isSome h.2)
          exact ih _ (by omega) b hb
      · rw [dif_neg h] at hb
        cases hq : reSplit t with
        | nil => exact absurd hq (reSplit_ne_nil t)
        | cons p ps =>
          rw [hq] at hb
          rcases List.mem_cons.1 hb with hb | hb
          · subst hb
            have hfp : sepFree p = true := ih t (by omega) p (by rw [hq]; simp)
            simp only [sepFree, Bool.and_eq_true, Bool.not_eq_true',
              Bool.and_eq_false_iff]
            refine ⟨?_, hfp⟩
            by_cases hc : c = '\n'
            · right
              have hnone : sepTail t = none := by
                rcases hst : sepTail t with _ | r
                · rfl
                · exact absurd ⟨hc, by rw [hst]; rfl⟩ h
              have := sepTail_none_head t.length t le_rfl hnone p ps hq
              rw [this]
              rfl
            · left; simp [hc]
          · exact ih t (by omega) b (by rw [hq]; simp [hb])

theorem sepTail_append_isSome {t v r : List Char} (h : sepTail t = some r) :
    (sepTail (t ++ v)).isSome = true := by
  induction t generalizing r with
  | nil => simp [sepTail] at h
  | cons c t' ih =>
    rw [sepTail] at h
    rw [List.cons_append, sepTail]
    by_cases hc : c = '\n'
    · rw [if_pos hc]; rfl
    · rw [if_neg hc] at h ⊢
      by_cases hsp : isPySpace c
      · rw [if_pos hsp] at h ⊢
        cases hst : sepTail t' with
        | none => rw [hst] at h; simp at h
        | some r' => exact ih hst
      · rw [if_neg hsp] at h; simp at h

theorem sepFree_append_left {u v : List Char} (h : sepFree (u ++ v) = true) :
    sepFree u = true := by
  induction u with
  | nil => rfl
  | cons c u' ih =>
    rw [List.cons_append, sepFree, Bool.and_eq_true] at h
    rw [sepFree, Bool.and_eq_true]
    refine ⟨?_, ih h.2⟩
    have h1 := h.1
    simp only [Bool.not_eq_true', Bool.and_eq_false_iff] at h1 ⊢
    rcases h1 with h1 | h1
    · left; exact h1
    · right
      cases hst : sepTail u' with
      | none => rfl
      | some r =>
        have hsm : (sepTail (u' ++ v)).isSome = true := sepTail_append_isSome hst
        rw [hsm] at h1
        simp at h1

theorem sepFree_tail {c : Char} {t : List Char} (h : sepFree (c :: t) = true) :
    sepFree t = true := by
  rw [sepFree, Bool.and_eq_true] at h
  exact h.2

theorem sepFree_dropWhile {b : List Char} (h : sepFree b = true) :
    sepFree (b.dropWhile isPySpace) = true := by
  induction b with
  | nil => exact h
  | cons c t ih =>
    by_cases hc : isPySpace c
    · rw [List.dropWhile_cons_of_pos hc]
      exact ih (sepFree_tail h)
    · rw [List.dropWhile_cons_of_neg hc]
      exact h

theorem dropWhile_pyStrip_decomp (b : List Char) :
    b.dropWhile isPySpace = pyStrip b ++
      ((b.dropWhile isPySpace).reverse.takeWhile isPySpace).reverse := by
  have h : ((b.dropWhile isPySpace).reverse).reverse =
      (((b.dropWhile isPySpace).reverse).dropWhile isPySpace).reverse ++
      (((b.dropWhile isPySpace).reverse).takeWhile isPySpace).reverse := by
    rw [← List.reverse_append, List.takeWhile_append_dropWhile]
  rw [List.reverse_reverse] at h
  unfold pyStrip
  exact h

theorem sepFree_pyStrip {b : List Char} (h : sepFree b = true) :
    sepFree (pyStrip b) = true := by
  have h1 := sepFree_dropWhile h
  rw [dropWhile_pyStrip_decomp b] at h1
  exact sepFree_append_left h1

theorem reSplit_of_sepFree {b : List Char} (h : sepFree b = true) :
    reSplit b = [b] := by
  induction b with
  | nil => exact reSplit_nil
  | cons c t ih =>
    rw [sepFree, Bool.and_eq_true] at h
    rw [reSplit_cons]
    have hcond : ¬(c = '\n' ∧ (sepTail t).isSome) := by
      intro hcon
      have h1 := h.1
      simp only [Bool.not_eq_true', Bool.and_eq_false_iff] at h1
      rcases h1 with h1 | h1
      · rw [decide_eq_false_iff_not] at h1; exact h1 hcon.1
      · rw [hcon.2] at h1; simp at h1
    rw [dif_neg hcond, ih h.2]

/-! ### Parsing a piece as its own document -/

theorem parseBlock_pyStrip (b : List Char) : parseBlock (pyStrip b) = parseBlock b := by
  have h := filterLines_pyStrip b
  unfold filterLines at h
  simp only [parseBlock, parseRawLines, h]

theorem flatten_map_toList {α β : Type} (f : α → Option β) :
    ∀ L : List α, (L.map (fun a => (f a).toList)).flatten = L.filterMap f := by
  intro L
  induction L with
  | nil => simp
  | cons a L ih =>
    cases hf : f a <;> simp [List.filterMap_cons, hf, ih]

theorem parse_trade_file_piece {b : List Char} (h : sepFree b = true) :
    parse_trade_file b = (parseBlock b).toList := by
  unfold parse_trade_file parseBlocks
  rw [reSplit_of_sepFree (sepFree_pyStrip h)]
  rw [← parseBlock_pyStrip b]
  cases hpb : parseBlock (pyStrip b) <;> simp [List.filterMap_cons, hpb]

/-! ### The while loop as a first-match search -/

theorem advanceIdx_spec_aux (lines : List (List Char)) (label : List Char) :
    ∀ (n idx : Nat), lines.length - idx ≤ n →
      advanceIdxAux lines label n idx =
        idx + ((lines.drop idx).takeWhile (fun l => !(l == label))).length := by
  intro n
  induction n with
  | zero =>
    intro idx h
    rw [List.drop_eq_nil_of_le (by omega)]
    simp [advanceIdxAux]
  | succ n ih =>
    intro idx h
    simp only [advanceIdxAux]
    by_cases hlt : idx < lines.length
    · rw [dif_pos hlt]
      have hdrop : lines.drop idx = lines[idx] :: lines.drop (idx + 1) :=
        List.drop_eq_getElem_cons hlt
      by_cases heq : lines[idx] = label
      · rw [if_pos (by simpa [List.get_eq_getElem] using heq)]
        rw [hdrop, List.takeWhile_cons]
        simp [heq]
      · rw [if_neg (by simpa [List.get_eq_getElem] using heq)]
        have hpred : (!(lines[idx] == label)) = true := by simp [heq]
        rw [ih (idx + 1) (by omega), hdrop, List.takeWhile_cons, if_pos hpred]
        simp only [List.length_cons]
        omega
    · rw [dif_neg hlt, List.drop_eq_nil_of_le (by omega)]
      simp

theorem advanceIdx_spec (lines : List (List Char)) (label : List Char) (idx : Nat) :
    advanceIdx lines label idx =
      idx + ((lines.drop idx).takeWhile (fun l => !(l == label))).length :=
  advanceIdx_spec_aux lines label (lines.length - idx) idx (by omega)

theorem scanStep_eq_specStep (lines : List (List Char))
    (st : Nat × List (String × String)) (label : List Char) :
    scanStep lines st label = specStep lines st label := by
  unfold scanStep specStep
  rw [advanceIdx_spec]

theorem foldl_congr_fn {α β : Type} {f g : β → α → β} (h : ∀ b a, f b a = g b a) :
    ∀ (l : List α) (init : β), l.foldl f init = l.foldl g init := by
  intro l
  induction l with
  | nil => intro init; rfl
  | cons a l ih => intro init; rw [List.foldl_cons, List.foldl_cons, h, ih]

theorem scanLabels_eq_specScanLabels (lines : List (List Char)) :
    scanLabels lines = specScanLabels lines := by
  unfold scanLabels specScanLabels
  rw [foldl_congr_fn (scanStep_eq_specStep lines)]

/-- Once the cursor is at or past the end of the lines, every remaining
label advances the cursor by one and captures nothing. -/
theorem scan_stuck (lines : List (List Char)) :
    ∀ (L : List (List Char)) (st : Nat × List (String × String)),
      lines.length ≤ st.1 →
      L.foldl (scanStep lines) st = (st.1 + L.length, st.2) := by
  intro L
  induction L with
  | nil => intro st h; simp
  | cons label L ih =>
    intro st h
    rw [List.foldl_cons]
    have hadv : advanceIdx lines label st.1 = st.1 := by
      rw [advanceIdx_spec, List.drop_eq_nil_of_le (by omega)]
      simp
    have hstep : scanStep lines st label = (st.1 + 1, st.2) := by
      unfold scanStep
      rw [hadv, if_neg (by omega)]
    rw [hstep, ih _ (by simp; omega)]
    simp
    omega

/-! ### Association list lookups and the extension produced by the scan -/

theorem lookup_append {β : Type} (a : String) (l₁ l₂ : List (String × β)) :
    (l₁ ++ l₂).lookup a = ((l₁.lookup a).or (l₂.lookup a)) := by
  induction l₁ with
  | nil => simp [List.lookup]
  | cons kv l ih =>
    obtain ⟨k, b⟩ := kv
    cases hk : (a == k) with
    | true => simp [List.lookup, hk]
    | false => simp [List.lookup, hk, ih]

theorem lookup_eq_none_of_forall {β : Type} {a : String} {l : List (String × β)}
    (h : ∀ kv ∈ l, kv.1 ≠ a) : l.lookup a = none := by
  induction l with
  | nil => rfl
  | cons kv l ih =>
    obtain ⟨k, b⟩ := kv
    have hk : (a == k) = false :=
      beq_eq_false_iff_ne.mpr (fun he => (h (k, b) (by simp)) he.symm)
    simp only [List.lookup, hk]
    exact ih (fun kv hkv => h kv (by simp [hkv]))

theorem lookup_eq_none_iff {β : Type} (a : String) (l : List (String × β)) :
    l.lookup a = none ↔ a ∉ l.map Prod.fst := by
  induction l with
  | nil => simp [List.lookup]
  | cons kv l ih =>
    obtain ⟨k, b⟩ := kv
    cases hk : (a == k) with
    | true =>
      have hak : a = k := beq_iff_eq.1 hk
      simp [List.lookup, hk, hak]
    | false =>
      have hak : a ≠ k := beq_eq_false_iff_ne.1 hk
      simp [List.lookup, hk, ih, hak]

/-- What one pass of the label loop appends to the record: one pair per
label found, whose key is that label and whose value is a line of the
block. -/
theorem scan_appends (lines : List (List Char)) :
    ∀ (L : List (List Char)) (st : Nat × List (String × String)),
      ∃ ext, (L.foldl (scanStep lines) st).2 = st.2 ++ ext ∧
        (ext.map Prod.fst).Sublist (L.map (fun l => String.mk l)) ∧
        ∀ kv ∈ ext, ∃ m ∈ lines, kv.2 = String.mk m := by
  intro L
  induction L with
  | nil => intro st; exact ⟨[], by simp, by simp, by simp⟩
  | cons label L ih =>
    intro st
    rw [List.foldl_cons]
    by_cases hcond : advanceIdx lines label st.1 < lines.length ∧
        lines.getD (advanceIdx lines label st.1) [] = label ∧
        advanceIdx lines label st.1 + 1 < lines.length
    · have hstep : scanStep lines st label =
          (advanceIdx lines label st.1 + 2, st.2 ++
            [(String.mk label,
              String.mk (lines.getD (advanceIdx lines label st.1 + 1) []))]) := by
        unfold scanStep
        rw [if_pos hcond]
      rw [hstep]
      obtain ⟨ext, hext, hsub, hvals⟩ := ih _
      refine ⟨(String.mk label,
        String.mk (lines.getD (advanceIdx lines label st.1 + 1) [])) :: ext,
        ?_, ?_, ?_⟩
      · rw [hext]; simp
      · simp only [List.map_cons]
        exact List.Sublist.cons₂ _ hsub
      · intro kv hkv
        rcases List.mem_cons.1 hkv with h | h
        · subst h
          refine ⟨lines.getD (advanceIdx lines label st.1 + 1) [], ?_, rfl⟩
          rw [List.getD_eq_getElem _ _ hcond.2.2]
          exact List.getElem_mem _
        · exact hvals kv h
    · have hstep : scanStep lines st label = (advanceIdx lines label st.1 + 1, st.2) := by
        unfold scanStep
        rw [if_neg hcond]
      rw [hstep]
      obtain ⟨ext, hext, hsub, hvals⟩ := ih _
      exact ⟨ext, hext, List.Sublist.cons _ hsub, hvals⟩

theorem mem_filterLines {l b : List Char} (h : l ∈ filterLines b) :
    l ≠ [] ∧ l.contains middot = false ∧ ∃ raw ∈ splitLines b, l = pyStrip raw := by
  unfold filterLines filterRaw at h
  rw [List.mem_filter] at h
  obtain ⟨h1, hmid⟩ := h
  rw [List.mem_filter] at h1
  obtain ⟨h2, hne⟩ := h1
  rw [List.mem_map] at h2
  obtain ⟨raw, hraw, hl⟩ := h2
  refine ⟨?_, by simpa using hmid, raw, hraw, hl.symm⟩
  intro hnil
  rw [hnil] at hne
  simp at hne

theorem parseBlock_eq_some {b : List Char} {r : List (String × String)}
    (h : parseBlock b = some r) :
    3 ≤ (filterLines b).length ∧
      r = [("header", String.mk ((filterLines b).getD 0 [])),
        ("Total Cost", String.mk ((filterLines b).getD 1 [])),
        ("Quantity + Price", String.mk ((filterLines b).getD 2 []))] ++
        scanLabels (filterLines b) := by
  unfold parseBlock parseRawLines at h
  by_cases hlen : (filterRaw (splitLines b)).length < 3
  · rw [if_pos hlen] at h
    simp at h
  · rw [if_neg hlen] at h
    simp only [Option.some.injEq] at h
    exact ⟨by unfold filterLines; omega, h.symm⟩

theorem contains_iff_mem {α : Type} [BEq α] [LawfulBEq α] {l : List α} {a : α} :
    l.contains a = true ↔ a ∈ l := by
  rw [List.contains_iff_exists_mem_beq]
  constructor
  · rintro ⟨b, hb, he⟩
    rw [beq_iff_eq] at he
    exact he ▸ hb
  · intro h
    exact ⟨a, h, by simp⟩

theorem takeWhile_getElem_sat {α : Type} (p : α → Bool) (l : List α) (j : Nat)
    (hj : j < (l.takeWhile p).length) (hjl : j < l.length) : p (l[j]) = true := by
  obtain ⟨suf, hsuf⟩ := ( List.takeWhile_prefix p : List.IsPrefix (l.takeWhile p) l)
  have h2 : l[j]? = (l.takeWhile p)[j]? := by
    conv_lhs => rw [← hsuf]
    rw [List.getElem?_append, if_pos hj]
  have h3 : l[j]? = some l[j] := List.getElem?_eq_getElem hjl
  have h4 : (l.takeWhile p)[j]? = some (l.takeWhile p)[j] := List.getElem?_eq_getElem hj
  have h5 : l[j] = (l.takeWhile p)[j] := by
    rw [h3, h4] at h2
    exact Option.some.inj h2
  rw [h5]
  exact List.mem_takeWhile_imp (List.getElem_mem hj)

theorem getD_drop_index (lines : List (List Char)) (i k : Nat) (hik : i ≤ k)
    (hk : k < lines.length) :
    lines.getD k [] = (lines.drop i).getD (k - i) [] := by
  have hlt : k - i < (lines.drop i).length := by
    simp only [List.length_drop]
    omega
  rw [List.getD_eq_getElem _ _ hk, List.getD_eq_getElem _ _ hlt]
  rw [List.getElem_drop]
  congr 1
  omega

/-! ### Claim theorems -/

/-- C1: for every block with at least 3 post-filter lines, the parser
extracts labelled fields from the lines at index 3 onward exactly as the
single-forward-cursor description states: per label in declared order, the
cursor advances past lines not equal to the label; on a match with a
following line that line becomes the value and the cursor advances by 2;
otherwise the cursor advances by 1 and the label is absent
(`specScanLabels` is the word-for-word description, `parseBlock` runs the
embedded while loop). -/
theorem parse_labels_forward_cursor (block : List Char)
    (h : 3 ≤ (filterLines block).length) :
    parseBlock block = some
      ([("header", String.mk ((filterLines block).getD 0 [])),
        ("Total Cost", String.mk ((filterLines block).getD 1 [])),
        ("Quantity + Price", String.mk ((filterLines block).getD 2 []))] ++
        specScanLabels (filterLines block)) := by
  simp only [parseBlock, parseRawLines]
  have h' : ¬ (filterRaw (splitLines block)).length < 3 := by
    unfold filterLines at h
    omega
  rw [if_neg h', scanLabels_eq_specScanLabels]
  rfl

/-- Witness for C1 at the concrete block `H / $1 / Q / Type / Credit`. -/
theorem parse_labels_forward_cursor_witness :
    parseBlock ("H\n$1\nQ\nType\nCredit".toList) = some
      ([("header", String.mk ((filterLines ("H\n$1\nQ\nType\nCredit".toList)).getD 0 [])),
        ("Total Cost", String.mk ((filterLines ("H\n$1\nQ\nType\nCredit".toList)).getD 1 [])),
        ("Quantity + Price", String.mk ((filterLines ("H\n$1\nQ\nType\nCredit".toList)).getD 2 []))] ++
        specScanLabels (filterLines ("H\n$1\nQ\nType\nCredit".toList))) :=
  parse_labels_forward_cursor _ (by decide)

/-- C2: parsing a document as a whole yields the same ordered records as
splitting it into its blank-line separated blocks and concatenating the
result of parsing each block as its own document. -/
theorem parse_document_blockwise (doc : List Char) :
    parse_trade_file doc = ((reSplit (pyStrip doc)).map parse_trade_file).flatten := by
  have h : parseBlocks (reSplit (pyStrip doc)) =
      ((reSplit (pyStrip doc)).map parse_trade_file).flatten := by
    unfold parseBlocks
    rw [← flatten_map_toList parseBlock (reSplit (pyStrip doc))]
    congr 1
    refine List.map_congr_left ?_
    intro b hb
    exact (parse_trade_file_piece (mem_reSplit_sepFree (pyStrip doc).length _ le_rfl b hb)).symm
  exact h

/-- C3: a block with fewer than 3 post-filter lines yields no record and no
error, the other blocks are unaffected, and the output is exactly one record
shorter than with a minimally valid variant of that block. -/
theorem short_block_skipped (pre post : List (List Char)) (b bv : List Char)
    (hb : (filterLines b).length < 3) (hbv : ¬ (filterLines bv).length < 3) :
    parseBlocks (pre ++ b :: post) = parseBlocks (pre ++ post) ∧
    (parseBlocks (pre ++ bv :: post)).length = (parseBlocks (pre ++ post)).length + 1 := by
  have hnone : parseBlock b = none := by
    simp only [parseBlock, parseRawLines]
    rw [if_pos (by unfold filterLines at hb; exact hb)]
  have hsome : ∃ r, parseBlock bv = some r := by
    simp only [parseBlock, parseRawLines]
    rw [if_neg (by unfold filterLines at hbv; exact hbv)]
    exact ⟨_, rfl⟩
  obtain ⟨r, hr⟩ := hsome
  constructor
  · unfold parseBlocks
    simp [List.filterMap_append, List.filterMap_cons, hnone]
  · unfold parseBlocks
    simp [List.filterMap_append, List.filterMap_cons, hr]
    omega

/-- Witness for C3: a header-only block between two valid blocks. -/
theorem short_block_skipped_witness :
    parseBlocks (["A\nB\nC".toList] ++ "H\nonly".toList :: ["D\nE\nF".toList]) =
      parseBlocks (["A\nB\nC".toList] ++ ["D\nE\nF".toList]) ∧
    (parseBlocks (["A\nB\nC".toList] ++ "A\nB\nC".toList :: ["D\nE\nF".toList])).length =
      (parseBlocks (["A\nB\nC".toList] ++ ["D\nE\nF".toList])).length + 1 :=
  short_block_skipped ["A\nB\nC".toList] ["D\nE\nF".toList]
    ("H\nonly".toList) ("A\nB\nC".toList) (by decide) (by decide)

/-- C6: a document whose single block has exactly three post-filter lines
parses to exactly one record holding only the three positional fields. -/
theorem three_line_block_positional_only (doc b0 a b c : List Char)
    (hblocks : reSplit (pyStrip doc) = [b0])
    (hlines : filterLines b0 = [a, b, c]) :
    parse_trade_file doc =
      [[("header", String.mk a), ("Total Cost", String.mk b),
        ("Quantity + Price", String.mk c)]] := by
  have hpb : parseBlock b0 = some
      [("header", String.mk a), ("Total Cost", String.mk b),
        ("Quantity + Price", String.mk c)] := by
    simp only [parseBlock, parseRawLines]
    unfold filterLines at hlines
    rw [hlines, if_neg (by simp)]
    have hscan : scanLabels [a, b, c] = [] := by
      unfold scanLabels
      rw [scan_stuck [a, b, c] labelsL (3, []) (by simp)]
    rw [hscan]
    simp
  unfold parse_trade_file parseBlocks
  rw [hblocks]
  simp [List.filterMap_cons, hpb]

/-- Witness for C6 at the specification's example block. -/
theorem three_line_block_positional_only_witness :
    parse_trade_file ("Buy SPY $645 Call 7/31\n$94.00\n2 contracts at $0.47".toList) =
      [[("header", "Buy SPY $645 Call 7/31"), ("Total Cost", "$94.00"),
        ("Quantity + Price", "2 contracts at $0.47")]] :=
  three_line_block_positional_only _
    ("Buy SPY $645 Call 7/31\n$94.00\n2 contracts at $0.47".toList)
    ("Buy SPY $645 Call 7/31".toList) ("$94.00".toList)
    ("2 contracts at $0.47".toList) (by decide) (by decide)

/-- C7: inserting a line containing the bullet glyph anywhere between the
lines of a block leaves the parse result unchanged. -/
theorem bullet_line_ignored (r1 r2 : List (List Char)) (x : List Char)
    (hx : x.contains middot = true) :
    parseRawLines (r1 ++ x :: r2) = parseRawLines (r1 ++ r2) := by
  have hmem : middot ∈ x := contains_iff_mem.1 hx
  have hstrip : middot ∈ pyStrip x := mem_pyStrip_of_not_space hmem middot_not_space
  have hone : filterRaw [x] = [] := by
    unfold filterRaw
    simp only [List.map_cons, List.map_nil]
    rw [List.filter_cons]
    have hne : (pyStrip x).isEmpty = false := by
      cases hp : pyStrip x with
      | nil => rw [hp] at hstrip; simp at hstrip
      | cons y ys => simp
    rw [if_pos (by simp [hne])]
    have hcon : (pyStrip x).contains middot = true := contains_iff_mem.2 hstrip
    rw [List.filter_cons, if_neg (by simp [hstrip])]
    rfl
  have hfil : filterRaw (r1 ++ x :: r2) = filterRaw (r1 ++ r2) := by
    have h1 : r1 ++ x :: r2 = r1 ++ ([x] ++ r2) := by simp
    rw [h1, filterRaw_append, filterRaw_append, hone, filterRaw_append]
    simp
  simp only [parseRawLines, hfil]

/-- Witness for C7: the bullet line of the specification's example. -/
theorem bullet_line_ignored_witness :
    parseRawLines (["H".toList] ++ "Individual · Jun 2".toList ::
        ["$1".toList, "Q".toList]) =
      parseRawLines (["H".toList] ++ ["$1".toList, "Q".toList]) :=
  bullet_line_ignored ["H".toList] ["$1".toList, "Q".toList]
    ("Individual · Jun 2".toList) (by decide)

/-- C4: with the post-positional lines `Status, Filled, Type, Credit`
(declared order has `Type` before `Status`), `Type` is still found by the
forward scan and captures the following line, while `Status` is missed
because the cursor has already passed it: the record has only `Type`
among the labelled fields, and no `Status` key. -/
theorem out_of_order_label_missed (block a b c v w : List Char)
    (hlines : filterLines block = [a, b, c, "Status".toList, v, "Type".toList, w])
    (hv : v ≠ "Type".toList) :
    parseBlock block = some
      [("header", String.mk a), ("Total Cost", String.mk b),
       ("Quantity + Price", String.mk c), ("Type", String.mk w)] := by
  have hlines' : filterRaw (splitLines block) =
      [a, b, c, "Status".toList, v, "Type".toList, w] := hlines
  simp only [parseBlock, parseRawLines]
  rw [hlines', if_neg (by simp)]
  have hscan : scanLabels [a, b, c, "Status".toList, v, "Type".toList, w] =
      [("Type", String.mk w)] := by
    unfold scanLabels
    rw [show labelsL = "Type".toList ::
        ["Position effect".toList, "Time in force".toList, "Submitted".toList,
         "Quantity".toList, "Account".toList, "Status".toList,
         "Filled quantity".toList, "Filled".toList, "Limit price".toList,
         "Est cost".toList, "Est regulatory fees".toList] from rfl,
      List.foldl_cons]
    have hadv : advanceIdx [a, b, c, "Status".toList, v, "Type".toList, w]
        "Type".toList 3 = 5 := by
      rw [advanceIdx_spec]
      have h2 : ((v : List Char) == ['T', 'y', 'p', 'e']) = false := by
        rw [beq_eq_false_iff_ne]
        exact hv
      simp [List.takeWhile_cons, h2]
    have hstep : scanStep [a, b, c, "Status".toList, v, "Type".toList, w]
        (3, []) "Type".toList = (7, [("Type", String.mk w)]) := by
      unfold scanStep
      rw [hadv, if_pos ⟨by simp, rfl, by simp⟩]
      rfl
    rw [hstep, scan_stuck _ _ _ (by simp)]
  rw [hscan]
  rfl

/-- Witness for C4 at the concrete lines of the claim. -/
theorem out_of_order_label_missed_witness :
    parseBlock ("H\n$1\nQ\nStatus\nFilled\nType\nCredit".toList) = some
      [("header", "H"), ("Total Cost", "$1"), ("Quantity + Price", "Q"),
       ("Type", "Credit")] :=
  out_of_order_label_missed _ ("H".toList) ("$1".toList) ("Q".toList)
    ("Filled".toList) ("Credit".toList) (by decide) (by decide)

/-- C5: when a declared label occurs more than once in cursor range, the
value captured for it comes from the first occurrence at or after the
cursor position at which that label is scanned; every earlier position in
that range is not the label, so later duplicates never supply the value. -/
theorem duplicate_label_first_capture (L1 L2 : List (List Char)) (lab : List Char)
    (lines : List (List Char)) (v : String)
    (hsplit : labelsL = L1 ++ lab :: L2)
    (hlook : (scanLabels lines).lookup (String.mk lab) = some v) :
    ∃ j, (L1.foldl (scanStep lines) (3, [])).1 ≤ j ∧ j + 1 < lines.length ∧
      lines.getD j [] = lab ∧
      (∀ k, (L1.foldl (scanStep lines) (3, [])).1 ≤ k → k < j →
        lines.getD k [] ≠ lab) ∧
      v = String.mk (lines.getD (j + 1) []) := by
  have hnodup : labelsL.Nodup := by decide
  rw [hsplit, List.nodup_append] at hnodup
  have hlab1 : lab ∉ L1 := fun hmem => (hnodup.2.2 hmem) (by simp)
  have hlab2 : lab ∉ L2 := by
    have h := hnodup.2.1
    rw [List.nodup_cons] at h
    exact h.1
  unfold scanLabels at hlook
  rw [hsplit, List.foldl_append, List.foldl_cons] at hlook
  set st1 := L1.foldl (scanStep lines) (3, ([] : List (String × String))) with hst1def
  obtain ⟨ext1, hext1, hsub1, _⟩ := scan_appends lines L1 (3, [])
  rw [← hst1def] at hext1
  have hkeys1 : ∀ kv ∈ st1.2, kv.1 ≠ String.mk lab := by
    intro kv hkv heq
    rw [hext1] at hkv
    simp only [List.nil_append] at hkv
    have hkey := hsub1.subset (List.mem_map_of_mem Prod.fst hkv)
    rw [List.mem_map] at hkey
    obtain ⟨l', hl', hkeq⟩ := hkey
    rw [heq] at hkeq
    have hll : l' = lab := congrArg String.data hkeq
    exact hlab1 (hll ▸ hl')
  have hkeys2gen : ∀ (ext2 : List (String × String)),
      (ext2.map Prod.fst).Sublist (L2.map (fun l => String.mk l)) →
      ∀ kv ∈ ext2, kv.1 ≠ String.mk lab := by
    intro ext2 hsub2 kv hkv heq
    have hkey := hsub2.subset (List.mem_map_of_mem Prod.fst hkv)
    rw [List.mem_map] at hkey
    obtain ⟨l', hl', hkeq⟩ := hkey
    rw [heq] at hkeq
    have hll : l' = lab := congrArg String.data hkeq
    exact hlab2 (hll ▸ hl')
  by_cases hcond : advanceIdx lines lab st1.1 < lines.length ∧
      lines.getD (advanceIdx lines lab st1.1) [] = lab ∧
      advanceIdx lines lab st1.1 + 1 < lines.length
  · have hstep : scanStep lines st1 lab = (advanceIdx lines lab st1.1 + 2,
        st1.2 ++ [(String.mk lab,
          String.mk (lines.getD (advanceIdx lines lab st1.1 + 1) []))]) := by
      unfold scanStep
      rw [if_pos hcond]
    rw [hstep] at hlook
    obtain ⟨ext2, hext2, hsub2, _⟩ := scan_appends lines L2
      (advanceIdx lines lab st1.1 + 2,
        st1.2 ++ [(String.mk lab,
          String.mk (lines.getD (advanceIdx lines lab st1.1 + 1) []))])
    rw [hext2, lookup_append, lookup_append,
      lookup_eq_none_of_forall hkeys1] at hlook
    have hpair : ([(String.mk lab,
        String.mk (lines.getD (advanceIdx lines lab st1.1 + 1) []))].lookup
          (String.mk lab)) =
        some (String.mk (lines.getD (advanceIdx lines lab st1.1 + 1) [])) := by
      simp [List.lookup]
    rw [hpair] at hlook
    simp only [Option.or, Option.none_or] at hlook
    refine ⟨advanceIdx lines lab st1.1, ?_, hcond.2.2, hcond.2.1, ?_, ?_⟩
    · rw [advanceIdx_spec]
      omega
    · intro k hk1 hk2
      have hklen : k < lines.length := lt_trans hk2 hcond.1
      rw [getD_drop_index lines st1.1 k hk1 hklen]
      rw [advanceIdx_spec] at hk2
      have hkT : k - st1.1 <
          ((lines.drop st1.1).takeWhile (fun l => !(l == lab))).length := by omega
      have hkd : k - st1.1 < (lines.drop st1.1).length := by
        simp only [List.length_drop]
        omega
      have hp := takeWhile_getElem_sat (fun l => !(l == lab))
        (lines.drop st1.1) (k - st1.1) hkT hkd
      rw [List.getD_eq_getElem _ _ hkd]
      simpa using hp
    · simpa using hlook.symm
  · have hstep : scanStep lines st1 lab = (advanceIdx lines lab st1.1 + 1, st1.2) := by
      unfold scanStep
      rw [if_neg hcond]
    rw [hstep] at hlook
    obtain ⟨ext2, hext2, hsub2, _⟩ := scan_appends lines L2
      (advanceIdx lines lab st1.1 + 1, st1.2)
    rw [hext2, lookup_append, lookup_eq_none_of_forall hkeys1,
      lookup_eq_none_of_forall (hkeys2gen ext2 hsub2)] at hlook
    simp at hlook

/-- Witness for C5: `Type` appearing twice; the captured value is the line
after the first occurrence. -/
theorem duplicate_label_first_capture_witness :
    ∃ j, 3 ≤ j ∧
      j + 1 < (["a".toList, "b".toList, "c".toList, "Type".toList,
        "Credit".toList, "Type".toList, "Debit".toList] : List (List Char)).length ∧
      (["a".toList, "b".toList, "c".toList, "Type".toList, "Credit".toList,
        "Type".toList, "Debit".toList] : List (List Char)).getD j [] = "Type".toList ∧
      (∀ k, 3 ≤ k → k < j →
        (["a".toList, "b".toList, "c".toList, "Type".toList, "Credit".toList,
          "Type".toList, "Debit".toList] : List (List Char)).getD k [] ≠ "Type".toList) ∧
      "Credit" = String.mk
        ((["a".toList, "b".toList, "c".toList, "Type".toList, "Credit".toList,
          "Type".toList, "Debit".toList] : List (List Char)).getD (j + 1) []) :=
  duplicate_label_first_capture []
    ["Position effect".toList, "Time in force".toList, "Submitted".toList,
     "Quantity".toList, "Account".toList, "Status".toList,
     "Filled quantity".toList, "Filled".toList, "Limit price".toList,
     "Est cost".toList, "Est regulatory fees".toList]
    ("Type".toList)
    ["a".toList, "b".toList, "c".toList, "Type".toList, "Credit".toList,
     "Type".toList, "Debit".toList]
    "Credit" rfl (by decide)

/-- C8: after any sequence of inserts, `fetch_all_trades` returns every
inserted row ordered by `saved_at` descending; after exactly two inserts
with distinct `saved_at` values it returns both rows, most recent first. -/
theorem fetch_all_trades_sorted :
    (∀ rs : List SaveRecord,
      (fetch_all_trades (rs.foldl insert_trade [])).Perm (rs.foldl insert_trade []) ∧
      List.Sorted savedAtDesc (fetch_all_trades (rs.foldl insert_trade []))) ∧
    (∀ r1 r2 : SaveRecord, r1.saved_at < r2.saved_at →
      fetch_all_trades (insert_trade (insert_trade [] r1) r2) =
        [⟨2, r2⟩, ⟨1, r1⟩]) := by
  constructor
  · intro rs
    exact ⟨List.perm_insertionSort savedAtDesc _,
      List.sorted_insertionSort savedAtDesc _⟩
  · intro r1 r2 h
    have hne : ¬ savedAtDesc ⟨1, r1⟩ ⟨2, r2⟩ := by
      simp only [savedAtDesc]
      exact not_le.mpr h
    show List.insertionSort savedAtDesc [⟨1, r1⟩, ⟨2, r2⟩] = [⟨2, r2⟩, ⟨1, r1⟩]
    simp [List.insertionSort, List.orderedInsert, hne]

/-- Witness for C8: two inserts with increasing timestamps come back most
recent first. -/
theorem fetch_all_trades_sorted_witness :
    fetch_all_trades (insert_trade (insert_trade []
        (buildRecord [] "" "" "2024-01-01T00:00:00"))
        (buildRecord [] "" "" "2024-01-02T00:00:00")) =
      [⟨2, buildRecord [] "" "" "2024-01-02T00:00:00"⟩,
       ⟨1, buildRecord [] "" "" "2024-01-01T00:00:00"⟩] :=
  fetch_all_trades_sorted.2 (buildRecord [] "" "" "2024-01-01T00:00:00")
    (buildRecord [] "" "" "2024-01-02T00:00:00")
    (by rw [String.lt_iff_toList_lt]; decide)

/-- C9: for a structured (JSON) trade object, every expected key that is
absent is listed in the missing-fields warning and feeds the empty string
into the record built for saving, while every present key keeps its value;
the record is built in both cases (missing keys are non-fatal). -/
theorem json_missing_keys_tolerated (td : List (String × String))
    (s c t k : String) (hk : k ∈ expected_keys) :
    (td.lookup k = none → k ∈ missingFields td ∧
      fieldOf (buildRecord td s c t) k = "") ∧
    (∀ v, td.lookup k = some v → k ∉ missingFields td ∧
      fieldOf (buildRecord td s c t) k = v) := by
  have hf : fieldOf (buildRecord td s c t) k = tdGet td k := by
    have hk' : k = "header" ∨ k = "Total Cost" ∨ k = "Quantity + Price" ∨
        k = "Type" ∨ k = "Position effect" ∨ k = "Time in force" ∨
        k = "Submitted" ∨ k = "Quantity" ∨ k = "Account" ∨ k = "Status" ∨
        k = "Filled quantity" ∨ k = "Filled" ∨ k = "Limit price" ∨
        k = "Est cost" ∨ k = "Est regulatory fees" := by
      simpa [expected_keys] using hk
    rcases hk' with rfl|rfl|rfl|rfl|rfl|rfl|rfl|rfl|rfl|rfl|rfl|rfl|rfl|rfl|rfl <;>
      simp [fieldOf, buildRecord]
  constructor
  · intro hnone
    refine ⟨?_, ?_⟩
    · unfold missingFields
      rw [List.mem_filter]
      refine ⟨hk, ?_⟩
      have hnm := (lookup_eq_none_iff k td).1 hnone
      simp only [Bool.not_eq_true']
      cases hcon : (td.map Prod.fst).contains k with
      | false => rfl
      | true => exact absurd (contains_iff_mem.1 hcon) hnm
    · rw [hf]
      unfold tdGet
      rw [hnone]
      rfl
  · intro v hsome
    refine ⟨?_, ?_⟩
    · unfold missingFields
      rw [List.mem_filter]
      rintro ⟨_, hcon⟩
      have hmem : k ∈ td.map Prod.fst := by
        by_contra hnm
        rw [(lookup_eq_none_iff k td).2 hnm] at hsome
        simp at hsome
      rw [contains_iff_mem.2 hmem] at hcon
      simp at hcon
    · rw [hf]
      unfold tdGet
      rw [hsome]
      rfl

/-- Witness for C9: an object with only a header has `Status` listed as
missing and mapped to the empty string, while `header` keeps its value. -/
theorem json_missing_keys_tolerated_witness :
    ("Status" ∈ missingFields [("header", "H")] ∧
      fieldOf (buildRecord [("header", "H")] "s" "c" "t") "Status" = "") ∧
    ("header" ∉ missingFields [("header", "H")] ∧
      fieldOf (buildRecord [("header", "H")] "s" "c" "t") "header" = "H") :=
  ⟨(json_missing_keys_tolerated [("header", "H")] "s" "c" "t" "Status"
      (by decide)).1 (by decide),
   (json_missing_keys_tolerated [("header", "H")] "s" "c" "t" "header"
      (by decide)).2 "H" (by decide)⟩

/-- C10: every record the parser emits has exactly the three positional
keys followed by a subset of the declared labels, in declared order; every
value is a stripped, non-empty, bullet-free line of one of the document's
blocks; and a document of only whitespace yields no records. -/
theorem record_shape_invariant (doc : List Char) :
    (∀ r ∈ parse_trade_file doc,
      (∃ rest, r.map Prod.fst =
          "header" :: "Total Cost" :: "Quantity + Price" :: rest ∧
        rest.Sublist labels) ∧
      (∀ kv ∈ r, ∃ b ∈ reSplit (pyStrip doc), ∃ l ∈ filterLines b,
        kv.2 = String.mk l ∧ l ≠ [] ∧ l.contains middot = false ∧
        ∃ raw ∈ splitLines b, l = pyStrip raw)) ∧
    ((∀ ch ∈ doc, isPySpace ch = true) → parse_trade_file doc = []) := by
  constructor
  · intro r hr
    unfold parse_trade_file parseBlocks at hr
    rw [List.mem_filterMap] at hr
    obtain ⟨b, hb, hpb⟩ := hr
    obtain ⟨hlen, hrec⟩ := parseBlock_eq_some hpb
    obtain ⟨ext, hext, hsub, hvals⟩ := scan_appends (filterLines b) labelsL (3, [])
    have hscan : scanLabels (filterLines b) = ext := by
      unfold scanLabels
      rw [hext]
      rfl
    constructor
    · refine ⟨ext.map Prod.fst, ?_, ?_⟩
      · rw [hrec, hscan]
        simp
      · have hlm : labelsL.map (fun l => String.mk l) = labels := rfl
        rw [← hlm]
        exact hsub
    · intro kv hkv
      rw [hrec] at hkv
      have hmem3 : ∀ i, i < 3 → (filterLines b).getD i [] ∈ filterLines b := by
        intro i hi
        rw [List.getD_eq_getElem _ _ (by omega)]
        exact List.getElem_mem _
      have hval : ∃ l ∈ filterLines b, kv.2 = String.mk l := by
        rcases List.mem_append.1 hkv with h3 | hlabel
        · simp only [List.mem_cons, List.mem_singleton] at h3
          rcases h3 with h | h | h | h
          all_goals try rw [h]
          · exact ⟨_, hmem3 0 (by omega), rfl⟩
          · exact ⟨_, hmem3 1 (by omega), rfl⟩
          · exact ⟨_, hmem3 2 (by omega), rfl⟩
          · simp at h
        · rw [hscan] at hlabel
          exact hvals kv hlabel
      obtain ⟨l, hl, hkvl⟩ := hval
      obtain ⟨hne, hmid, raw, hraw, hstrip⟩ := mem_filterLines hl
      exact ⟨b, hb, l, hl, hkvl, hne, hmid, raw, hraw, hstrip⟩
  · intro hsp
    have h0 : pyStrip doc = [] := pyStrip_eq_nil_of_all hsp
    unfold parse_trade_file parseBlocks
    rw [h0, reSplit_nil]
    have hnil : parseBlock [] = none := rfl
    simp [List.filterMap_cons, hnil]

/-- Witness for C10 at a whitespace-only document and a one-block
document. -/
theorem record_shape_invariant_witness :
    parse_trade_file ("  \n ".toList) = [] ∧
    (∃ rest, (List.map Prod.fst
        [("header", ("H" : String)), ("Total Cost", ("$1" : String)),
         ("Quantity + Price", ("Q" : String))]) =
        "header" :: "Total Cost" :: "Quantity + Price" :: rest ∧
      rest.Sublist labels) :=
  ⟨(record_shape_invariant ("  \n ".toList)).2 (by decide),
   ((record_shape_invariant ("H\n$1\nQ".toList)).1
      [("header", "H"), ("Total Cost", "$1"), ("Quantity + Price", "Q")]
      (by decide)).1⟩

end TradeJournal
